import Mathlib

/-!
# Verification of the eosio action envelope codec (`contracts/eoslib/action.hpp`)

This development shallowly embeds the `eosio` action header: the
`permission_level` and `action` records with their stream operators
(`operator<<` / `operator>>`), the `current_action<T>` raw-reinterpretation
wrapper, the `unpack_action<T>` wrapper, the variadic `require_recipient`
helper, the `action_meta`-based constructor and `action::send`.

The codec primitives (`raw.hpp` / the datastream) are not part of the
source fragment; they are modelled from the spec: fixed-width scalars are
written in raw little-endian byte order, opaque byte sequences and element
sequences are written as a fixed-width unsigned count followed by the raw
contents.  Bytes are modelled as natural numbers below 256, byte buffers
as `List Nat`.  Decoders return `Except String (value × remaining bytes)`;
stream sequencing (`ds >> x >> y`) is written as explicit continuation
functions (`..._tail`).  The `TruncatedInput` condition is the string
"truncated input" and the `ShortRead` condition of `current_action` is the
source's assertion message "action shorter than expected".
-/

/-- Embeds `account_name` from the eoslib types: a 64-bit unsigned identifier,
modelled as a natural number (well-formed when `< 2^64`). -/
abbrev account_name := Nat

/-- Embeds `permission_name`: a 64-bit unsigned identifier, like `account_name`. -/
abbrev permission_name := Nat

/-- Modelled from the spec: a fixed-width scalar is encoded as its raw
little-endian bytes.  `toLE w n` is the `w`-byte little-endian encoding of
`n % 256^w`. -/
def toLE : Nat → Nat → List Nat
  | 0, _ => []
  | w + 1, n => n % 256 :: toLE w (n / 256)

/-- Little-endian value of a byte list (inverse of `toLE` on bounded input). -/
def fromLE : List Nat → Nat
  | [] => 0
  | b :: bs => b + 256 * fromLE bs

/-- Stream-read of exactly `n` raw bytes; fails with the `TruncatedInput`
condition when fewer bytes remain, as the spec's codec requires. -/
def readBytes (n : Nat) (bs : List Nat) : Except String (List Nat × List Nat) :=
  if n ≤ bs.length then .ok (bs.take n, bs.drop n) else .error "truncated input"

/-- Decode a 64-bit little-endian scalar (the encoding of `account_name`,
`permission_name` and `action_name` fields). -/
def decodeU64 (bs : List Nat) : Except String (Nat × List Nat) :=
  match readBytes 8 bs with
  | .ok (b, rest) => .ok (fromLE b, rest)
  | .error e => .error e

/-- Modelled from the spec: the count/length prefix of sequences and byte
blobs is a fixed-width unsigned integer; we fix it to 4 little-endian bytes. -/
def decodeCount (bs : List Nat) : Except String (Nat × List Nat) :=
  match readBytes 4 bs with
  | .ok (b, rest) => .ok (fromLE b, rest)
  | .error e => .error e

/-- Embeds `eosio::permission_level` from `action.hpp`: actor + permission pair. -/
structure permission_level where
  actor : account_name
  permission : permission_name
  deriving Repr, DecidableEq

/-- Well-formedness of a `permission_level`: both identifiers fit in 64 bits. -/
def permission_level.wf (p : permission_level) : Prop :=
  p.actor < 2 ^ 64 ∧ p.permission < 2 ^ 64

instance (p : permission_level) : Decidable p.wf := by
  unfold permission_level.wf; infer_instance

/-- Embeds `operator<<(ds, permission_level)`: `ds << a.actor << a.permission`. -/
def pack_permission_level (p : permission_level) : List Nat :=
  toLE 8 p.actor ++ toLE 8 p.permission

/-- Second step of `operator>>(ds, permission_level)`: read the permission
field once the actor field `a` has been read. -/
def decodePL_tail (a : Nat) (bs : List Nat) :
    Except String (permission_level × List Nat) :=
  match decodeU64 bs with
  | .ok (p, r2) => .ok (⟨a, p⟩, r2)
  | .error e => .error e

/-- Embeds `operator>>(ds, permission_level)`: `ds >> a.actor >> a.permission`. -/
def decodePL (bs : List Nat) : Except String (permission_level × List Nat) :=
  match decodeU64 bs with
  | .ok (a, r1) => decodePL_tail a r1
  | .error e => .error e

/-- Body of `raw::pack` on a `vector<permission_level>` after its count
prefix: each element packed in order (modelled from the spec's sequence
rule; the element encoding is the source's `operator<<`). -/
def pack_pl_list : List permission_level → List Nat
  | [] => []
  | p :: ps => pack_permission_level p ++ pack_pl_list ps

/-- Modelled from the spec: `raw::pack` of a `vector<permission_level>` is a
count prefix followed by each element packed in order. -/
def pack_pl_vec (ps : List permission_level) : List Nat :=
  toLE 4 ps.length ++ pack_pl_list ps

/-- Prepend the already-read head element `p` to the outcome of the decoder
`Dk` for the remaining elements. -/
def cons_tail (Dk : List Nat → Except String (List permission_level × List Nat))
    (p : permission_level) (bs : List Nat) :
    Except String (List permission_level × List Nat) :=
  match Dk bs with
  | .ok (ps, r2) => .ok (p :: ps, r2)
  | .error e => .error e

/-- Decode `k` consecutive `permission_level` elements. -/
def decodePLs : Nat → List Nat → Except String (List permission_level × List Nat)
  | 0, bs => .ok ([], bs)
  | k + 1, bs =>
    match decodePL bs with
    | .ok (p, r1) => cons_tail (decodePLs k) p r1
    | .error e => .error e

/-- Modelled from the spec: `raw::unpack` of a `vector<permission_level>`
reads the count prefix then that many elements in order. -/
def decodePLVec (bs : List Nat) : Except String (List permission_level × List Nat) :=
  match decodeCount bs with
  | .ok (k, r1) => decodePLs k r1
  | .error e => .error e

/-- Modelled from the spec: `raw::pack` of an opaque byte sequence (`bytes`)
is a length prefix followed by the raw bytes. -/
def pack_bytes (d : List Nat) : List Nat :=
  toLE 4 d.length ++ d

/-- Modelled from the spec: `raw::unpack` of `bytes` reads the length prefix
then that many raw bytes. -/
def decodeBytes (bs : List Nat) : Except String (List Nat × List Nat) :=
  match decodeCount bs with
  | .ok (m, r1) => readBytes m r1
  | .error e => .error e

/-- Embeds `eosio::action` from `action.hpp`: account, name, authorization list and
opaque packed payload data. -/
structure action where
  account : account_name
  name : account_name
  authorization : List permission_level
  data : List Nat
  deriving Repr, DecidableEq

/-- Well-formedness of an `action`: the scalar fields fit in 64 bits, every
authorization entry is well-formed, and both variable-length fields fit the
fixed-width count prefix. -/
def action.wf (a : action) : Prop :=
  a.account < 2 ^ 64 ∧ a.name < 2 ^ 64 ∧ (∀ p ∈ a.authorization, p.wf) ∧
    a.authorization.length < 2 ^ 32 ∧ a.data.length < 2 ^ 32

instance (a : action) : Decidable a.wf := by
  unfold action.wf; infer_instance

/-- Embeds `operator<<(ds, action)`: `ds << a.account << a.name;`
`raw::pack(ds, a.authorization); raw::pack(ds, a.data)`. -/
def pack_action (a : action) : List Nat :=
  toLE 8 a.account ++ toLE 8 a.name ++ pack_pl_vec a.authorization ++ pack_bytes a.data

/-- Last step of `operator>>(ds, action)`: read the `data` field once
account, name and authorization have been read. -/
def decodeAction_tail3 (c n : Nat) (auth : List permission_level)
    (bs : List Nat) : Except String (action × List Nat) :=
  match decodeBytes bs with
  | .ok (d, r4) => .ok (⟨c, n, auth, d⟩, r4)
  | .error e => .error e

/-- Step of `operator>>(ds, action)` after account and name: read the
authorization vector. -/
def decodeAction_tail2 (c n : Nat) (bs : List Nat) :
    Except String (action × List Nat) :=
  match decodePLVec bs with
  | .ok (auth, r3) => decodeAction_tail3 c n auth r3
  | .error e => .error e

/-- Step of `operator>>(ds, action)` after the account field: read the name. -/
def decodeAction_tail1 (c : Nat) (bs : List Nat) :
    Except String (action × List Nat) :=
  match decodeU64 bs with
  | .ok (n, r2) => decodeAction_tail2 c n r2
  | .error e => .error e

/-- Embeds `operator>>(ds, action)`: `ds >> a.account >> a.name;`
`raw::unpack(ds, a.authorization); raw::unpack(ds, a.data)`. -/
def decodeAction (bs : List Nat) : Except String (action × List Nat) :=
  match decodeU64 bs with
  | .ok (c, r1) => decodeAction_tail1 c r1
  | .error e => .error e

/-- Embeds `current_action<T>()` from `action.hpp`: `T value;` is filled by the
host call `read_action(&value, sizeof(value))`, which reports `read` bytes;
the source then asserts `read >= sizeof(value)` with the message
"action shorter than expected" and returns the reinterpreted value — the
first `sizeof(T)` bytes the host provided, any extra bytes discarded. -/
def current_action (sizeofT : Nat) (read : Nat) (hostData : List Nat) :
    Except String (List Nat) :=
  if sizeofT ≤ read then .ok (hostData.take sizeofT)
  else .error "action shorter than expected"

/-- Embeds `unpack_action<T>()` from `action.hpp`: a buffer of `action_size()`
bytes is allocated, `read_action(buffer, sizeof(buffer))` copies `copied`
into its front — the returned byte count is discarded — and
`raw::unpack<T>` (embedded by the decoder `dec`) runs over the whole
buffer, the uncopied remainder (`junk`, the uninitialized stack memory)
included. -/
def unpack_action {α : Type} (dec : List Nat → Except String (α × List Nat))
    (actionSize : Nat) (copied junk : List Nat) : Except String α :=
  match dec ((copied ++ junk).take actionSize) with
  | .ok (v, _) => .ok v
  | .error e => .error e

/-- Modelled from the spec: the host boundary call `require_recipient(a)`
succeeds iff `a` is in the notified-recipients set and fails fatally
otherwise (the failing account is carried as the error). -/
def host_require_recipient (notified : List account_name) (a : account_name) :
    Except account_name Unit :=
  if a ∈ notified then .ok () else .error a

/-- The variadic `require_recipient(name, remaining_accounts...)` helper
from `action.hpp`, applied to its argument list: it checks each account
against the host boundary call in left-to-right order and the host's fatal
failure stops the recursion at the first absent account.  The result is the
trace of accounts actually checked, in order, paired with the failing
account if any. -/
def require_recipient_all (notified : List account_name) :
    List account_name → List account_name × Option account_name
  | [] => ([], none)
  | a :: rest =>
    match host_require_recipient notified a with
    | .ok _ =>
      let r := require_recipient_all notified rest
      (a :: r.1, r.2)
    | .error b => ([a], some b)

/-- Embeds `action_meta<Account, Name>::get_account()`. -/
def action_meta.get_account (Account Name : Nat) : Nat := Account

/-- Embeds `action_meta<Account, Name>::get_name()`. -/
def action_meta.get_name (Account Name : Nat) : Nat := Name

/-- The templated `action` constructor: given a moved-in authorization
sequence and a payload `value` whose type carries the static accessors of
`action_meta<Account, Name>`, it sets `account`/`name` from the accessors,
takes ownership of the sequence and sets `data` to the packed payload
(`raw::pack` at the payload type is abstracted as `pk`). -/
def action.of_payload {α : Type} (Account Name : Nat) (pk : α → List Nat)
    (auth : List permission_level) (value : α) : action :=
  { account := action_meta.get_account Account Name
    name := action_meta.get_name Account Name
    authorization := auth
    data := pk value }

/-- Embeds `action::send()`: `auto serialize = raw::pack(*this);`
`::send_inline(serialize.data(), serialize.size())`.  The embedding returns
the byte buffer and the length handed to the host boundary call. -/
def action.send (a : action) : List Nat × Nat :=
  (pack_action a, (pack_action a).length)

/-- Predicate `Consumes D` says: whenever the decoder `D` succeeds on a buffer it
consumed a definite number `c` of leading bytes, succeeds with the same
value on the `take l` of the buffer for every `l ≥ c`, and fails with the
`TruncatedInput` condition on every shorter `take l`.  This is the key
invariant behind the spec's truncation property. -/
def Consumes {α : Type} (D : List Nat → Except String (α × List Nat)) : Prop :=
  ∀ bs v rest, D bs = .ok (v, rest) →
    ∃ c, c ≤ bs.length ∧ rest = bs.drop c ∧
      (∀ l, c ≤ l → D (bs.take l) = .ok (v, (bs.take l).drop c)) ∧
      (∀ l, l < c → D (bs.take l) = .error "truncated input")

/-- Predicate `ErrOnly D` says the only error condition the decoder `D` ever reports
is the `TruncatedInput` condition — in particular never the `ShortRead`
assertion message of `current_action`. -/
def ErrOnly {α : Type} (D : List Nat → Except String (α × List Nat)) : Prop :=
  ∀ bs e, D bs = .error e → e = "truncated input"

/-! ## Round-trip lemmas for the codec primitives -/

theorem length_toLE (w n : Nat) : (toLE w n).length = w := by
  induction w generalizing n with
  | zero => rfl
  | succ w ih => simp [toLE, ih]

theorem fromLE_toLE (w n : Nat) : fromLE (toLE w n) = n % 256 ^ w := by
  induction w generalizing n with
  | zero => simp [toLE, fromLE, Nat.mod_one]
  | succ w ih =>
    have h256 : (256 : Nat) ^ (w + 1) = 256 * 256 ^ w := by ring
    simp only [toLE, fromLE, ih, h256, Nat.mod_mul]

theorem readBytes_append (xs rest : List Nat) :
    readBytes xs.length (xs ++ rest) = .ok (xs, rest) := by
  simp [readBytes, List.take_left, List.drop_left]

theorem decodeU64_toLE (n : Nat) (h : n < 2 ^ 64) (rest : List Nat) :
    decodeU64 (toLE 8 n ++ rest) = .ok (n, rest) := by
  have hl : (toLE 8 n).length = 8 := length_toLE 8 n
  have hrb := readBytes_append (toLE 8 n) rest
  rw [hl] at hrb
  have hval : fromLE (toLE 8 n) = n := by
    rw [fromLE_toLE]
    have hpow : (256 : Nat) ^ 8 = 2 ^ 64 := by norm_num
    rw [hpow]
    exact Nat.mod_eq_of_lt h
  simp only [decodeU64, hrb, hval]

theorem decodeCount_toLE (n : Nat) (h : n < 2 ^ 32) (rest : List Nat) :
    decodeCount (toLE 4 n ++ rest) = .ok (n, rest) := by
  have hl : (toLE 4 n).length = 4 := length_toLE 4 n
  have hrb := readBytes_append (toLE 4 n) rest
  rw [hl] at hrb
  have hval : fromLE (toLE 4 n) = n := by
    rw [fromLE_toLE]
    have hpow : (256 : Nat) ^ 4 = 2 ^ 32 := by norm_num
    rw [hpow]
    exact Nat.mod_eq_of_lt h
  simp only [decodeCount, hrb, hval]

theorem decodePL_pack (p : permission_level) (h : p.wf) (rest : List Nat) :
    decodePL (pack_permission_level p ++ rest) = .ok (p, rest) := by
  obtain ⟨h1, h2⟩ := h
  simp [decodePL, decodePL_tail, pack_permission_level, List.append_assoc,
    decodeU64_toLE p.actor h1, decodeU64_toLE p.permission h2]

theorem decodePLs_pack (ps : List permission_level) (h : ∀ p ∈ ps, p.wf)
    (rest : List Nat) :
    decodePLs ps.length (pack_pl_list ps ++ rest) = .ok (ps, rest) := by
  induction ps with
  | nil => simp [decodePLs, pack_pl_list]
  | cons p ps ih =>
    have hp : p.wf := h p (List.mem_cons_self p ps)
    have hps : ∀ q ∈ ps, q.wf := fun q hq => h q (List.mem_cons_of_mem p hq)
    simp [decodePLs, cons_tail, pack_pl_list, List.append_assoc,
      decodePL_pack p hp, ih hps]

theorem decodePLVec_pack (ps : List permission_level) (h : ∀ p ∈ ps, p.wf)
    (hlen : ps.length < 2 ^ 32) (rest : List Nat) :
    decodePLVec (pack_pl_vec ps ++ rest) = .ok (ps, rest) := by
  simp [decodePLVec, pack_pl_vec, List.append_assoc,
    decodeCount_toLE ps.length hlen, decodePLs_pack ps h]

theorem decodeBytes_pack (d : List Nat) (h : d.length < 2 ^ 32) (rest : List Nat) :
    decodeBytes (pack_bytes d ++ rest) = .ok (d, rest) := by
  simp [decodeBytes, pack_bytes, List.append_assoc, decodeCount_toLE d.length h,
    readBytes_append]

theorem decodeAction_pack (a : action) (h : a.wf) (rest : List Nat) :
    decodeAction (pack_action a ++ rest) = .ok (a, rest) := by
  obtain ⟨h1, h2, h3, h4, h5⟩ := h
  simp [decodeAction, decodeAction_tail1, decodeAction_tail2, decodeAction_tail3,
    pack_action, List.append_assoc, decodeU64_toLE a.account h1,
    decodeU64_toLE a.name h2, decodePLVec_pack a.authorization h3 h4,
    decodeBytes_pack a.data h5]

/-! ## Prefix behaviour of the decoders -/

theorem consumes_readBytes (n : Nat) : Consumes (readBytes n) := by
  intro bs v rest h
  unfold readBytes at h
  by_cases hn : n ≤ bs.length
  · rw [if_pos hn] at h
    obtain ⟨hv, hrest⟩ := by
      have := h
      simp only [Except.ok.injEq, Prod.mk.injEq] at this
      exact this
    refine ⟨n, hn, hrest.symm, ?_, ?_⟩
    · intro l hl
      have hlen : n ≤ (bs.take l).length := by
        simp [List.length_take]; omega
      have htt : (bs.take l).take n = bs.take n := by
        rw [List.take_take, Nat.min_eq_left hl]
      rw [readBytes, if_pos hlen, htt, ← hv]
    · intro l hl
      have hlen : (bs.take l).length < n := by
        simp [List.length_take]; omega
      rw [readBytes, if_neg (by omega)]
  · rw [if_neg hn] at h
    exact absurd h (by simp)

theorem consumes_bind {α β : Type} {D1 : List Nat → Except String (α × List Nat)}
    {f : α → List Nat → Except String (β × List Nat)}
    {D : List Nat → Except String (β × List Nat)}
    (hD : ∀ bs, D bs = match D1 bs with
      | .ok (a, r) => f a r
      | .error e => .error e)
    (h1 : Consumes D1) (h2 : ∀ a, Consumes (f a)) : Consumes D := by
  intro bs v rest h
  rw [hD bs] at h
  cases hd1 : D1 bs with
  | error e => rw [hd1] at h; exact absurd h (by simp)
  | ok ar =>
    obtain ⟨a, r1⟩ := ar
    rw [hd1] at h
    obtain ⟨c1, hc1, hr1, hok1, herr1⟩ := h1 bs a r1 hd1
    obtain ⟨c2, hc2, hrest, hok2, herr2⟩ := h2 a r1 v rest h
    have hr1len : r1.length = bs.length - c1 := by rw [hr1, List.length_drop]
    refine ⟨c1 + c2, by omega, ?_, ?_, ?_⟩
    · rw [hrest, hr1, List.drop_drop]
    · intro l hl
      have hdt : (bs.take l).drop c1 = r1.take (l - c1) := by
        rw [List.drop_take, hr1]
      have step : D (bs.take l) = f a ((bs.take l).drop c1) := by
        rw [hD, hok1 l (by omega)]
      rw [step, hdt, hok2 (l - c1) (by omega), ← hdt, List.drop_drop]
    · intro l hl
      by_cases hlc : l < c1
      · have step : D (bs.take l) = .error "truncated input" := by
          rw [hD, herr1 l hlc]
        exact step
      · have hdt : (bs.take l).drop c1 = r1.take (l - c1) := by
          rw [List.drop_take, hr1]
        have step : D (bs.take l) = f a ((bs.take l).drop c1) := by
          rw [hD, hok1 l (by omega)]
        rw [step, hdt, herr2 (l - c1) (by omega)]

theorem consumes_map {α β : Type} {D1 : List Nat → Except String (α × List Nat)}
    {g : α → β} {D : List Nat → Except String (β × List Nat)}
    (hD : ∀ bs, D bs = match D1 bs with
      | .ok (a, r) => .ok (g a, r)
      | .error e => .error e)
    (h1 : Consumes D1) : Consumes D := by
  refine consumes_bind hD h1 ?_
  intro a bs v rest h
  obtain ⟨hv, hrest⟩ := by
    have := h
    simp only [Except.ok.injEq, Prod.mk.injEq] at this
    exact this
  refine ⟨0, Nat.zero_le _, by simp [hrest], ?_, ?_⟩
  · intro l _
    simp [← hv]
  · intro l hl
    omega

theorem consumes_decodeU64 : Consumes decodeU64 :=
  consumes_map (g := fromLE)
    (fun bs => by
      unfold decodeU64
      cases h : readBytes 8 bs with
      | ok p => obtain ⟨b, r⟩ := p; rfl
      | error e => rfl)
    (consumes_readBytes 8)

theorem consumes_decodeCount : Consumes decodeCount :=
  consumes_map (g := fromLE)
    (fun bs => by
      unfold decodeCount
      cases h : readBytes 4 bs with
      | ok p => obtain ⟨b, r⟩ := p; rfl
      | error e => rfl)
    (consumes_readBytes 4)

theorem consumes_decodePL_tail (a : Nat) : Consumes (decodePL_tail a) :=
  consumes_map (g := fun p => (⟨a, p⟩ : permission_level))
    (fun bs => by
      unfold decodePL_tail
      cases h : decodeU64 bs with
      | ok p => obtain ⟨b, r⟩ := p; rfl
      | error e => rfl)
    consumes_decodeU64

theorem consumes_decodePL : Consumes decodePL :=
  consumes_bind (f := decodePL_tail)
    (fun bs => by
      unfold decodePL
      cases h : decodeU64 bs with
      | ok p => obtain ⟨b, r⟩ := p; rfl
      | error e => rfl)
    consumes_decodeU64 consumes_decodePL_tail

theorem consumes_cons_tail
    {Dk : List Nat → Except String (List permission_level × List Nat)}
    (hk : Consumes Dk) (p : permission_level) : Consumes (cons_tail Dk p) :=
  consumes_map (g := fun ps => p :: ps)
    (fun bs => by
      unfold cons_tail
      cases h : Dk bs with
      | ok q => obtain ⟨ps, r⟩ := q; rfl
      | error e => rfl)
    hk

theorem consumes_decodePLs (k : Nat) : Consumes (decodePLs k) := by
  induction k with
  | zero =>
    intro bs v rest h
    have hvr : v = [] ∧ rest = bs := by
      have := h
      simp only [decodePLs, Except.ok.injEq, Prod.mk.injEq] at this
      exact ⟨this.1.symm, this.2.symm⟩
    obtain ⟨hv, hrest⟩ := hvr
    refine ⟨0, Nat.zero_le _, by simp [hrest], ?_, ?_⟩
    · intro l _
      simp [decodePLs, hv]
    · intro l hl
      omega
  | succ k ih =>
    exact consumes_bind (f := cons_tail (decodePLs k))
      (fun bs => by
        unfold decodePLs
        cases h : decodePL bs with
        | ok q => obtain ⟨p, r⟩ := q; rfl
        | error e => rfl)
      consumes_decodePL (consumes_cons_tail ih)

theorem consumes_decodePLVec : Consumes decodePLVec :=
  consumes_bind (f := decodePLs)
    (fun bs => by
      unfold decodePLVec
      cases h : decodeCount bs with
      | ok p => obtain ⟨k, r⟩ := p; rfl
      | error e => rfl)
    consumes_decodeCount consumes_decodePLs

theorem consumes_decodeBytes : Consumes decodeBytes :=
  consumes_bind (f := readBytes)
    (fun bs => by
      unfold decodeBytes
      cases h : decodeCount bs with
      | ok p => obtain ⟨m, r⟩ := p; rfl
      | error e => rfl)
    consumes_decodeCount consumes_readBytes

theorem consumes_decodeAction_tail3 (c n : Nat) (auth : List permission_level) :
    Consumes (decodeAction_tail3 c n auth) :=
  consumes_map (g := fun d => (⟨c, n, auth, d⟩ : action))
    (fun bs => by
      unfold decodeAction_tail3
      cases h : decodeBytes bs with
      | ok p => obtain ⟨d, r⟩ := p; rfl
      | error e => rfl)
    consumes_decodeBytes

theorem consumes_decodeAction_tail2 (c n : Nat) :
    Consumes (decodeAction_tail2 c n) :=
  consumes_bind (f := decodeAction_tail3 c n)
    (fun bs => by
      unfold decodeAction_tail2
      cases h : decodePLVec bs with
      | ok p => obtain ⟨auth, r⟩ := p; rfl
      | error e => rfl)
    consumes_decodePLVec (consumes_decodeAction_tail3 c n)

theorem consumes_decodeAction_tail1 (c : Nat) :
    Consumes (decodeAction_tail1 c) :=
  consumes_bind (f := decodeAction_tail2 c)
    (fun bs => by
      unfold decodeAction_tail1
      cases h : decodeU64 bs with
      | ok p => obtain ⟨n, r⟩ := p; rfl
      | error e => rfl)
    consumes_decodeU64 (consumes_decodeAction_tail2 c)

theorem consumes_decodeAction : Consumes decodeAction :=
  consumes_bind (f := decodeAction_tail1)
    (fun bs => by
      unfold decodeAction
      cases h : decodeU64 bs with
      | ok p => obtain ⟨c, r⟩ := p; rfl
      | error e => rfl)
    consumes_decodeU64 consumes_decodeAction_tail1

/-! ## Error taxonomy of the decoders -/

theorem errOnly_readBytes (n : Nat) : ErrOnly (readBytes n) := by
  intro bs e h
  unfold readBytes at h
  by_cases hn : n ≤ bs.length
  · rw [if_pos hn] at h
    exact absurd h (by simp)
  · rw [if_neg hn] at h
    have := h
    simp only [Except.error.injEq] at this
    exact this.symm

theorem errOnly_bind {α β : Type} {D1 : List Nat → Except String (α × List Nat)}
    {f : α → List Nat → Except String (β × List Nat)}
    {D : List Nat → Except String (β × List Nat)}
    (hD : ∀ bs, D bs = match D1 bs with
      | .ok (a, r) => f a r
      | .error e => .error e)
    (h1 : ErrOnly D1) (h2 : ∀ a, ErrOnly (f a)) : ErrOnly D := by
  intro bs e h
  rw [hD bs] at h
  cases hd1 : D1 bs with
  | error e1 =>
    rw [hd1] at h
    have he : e1 = e := by
      have := h
      simp only [Except.error.injEq] at this
      exact this
    exact he ▸ h1 bs e1 hd1
  | ok ar =>
    obtain ⟨a, r⟩ := ar
    rw [hd1] at h
    exact h2 a r e h

theorem errOnly_map {α β : Type} {D1 : List Nat → Except String (α × List Nat)}
    {g : α → β} {D : List Nat → Except String (β × List Nat)}
    (hD : ∀ bs, D bs = match D1 bs with
      | .ok (a, r) => .ok (g a, r)
      | .error e => .error e)
    (h1 : ErrOnly D1) : ErrOnly D := by
  refine errOnly_bind hD h1 ?_
  intro a bs e h
  exact absurd h (by simp)

theorem errOnly_decodeU64 : ErrOnly decodeU64 :=
  errOnly_map (g := fromLE)
    (fun bs => by
      unfold decodeU64
      cases h : readBytes 8 bs with
      | ok p => obtain ⟨b, r⟩ := p; rfl
      | error e => rfl)
    (errOnly_readBytes 8)

theorem errOnly_decodeCount : ErrOnly decodeCount :=
  errOnly_map (g := fromLE)
    (fun bs => by
      unfold decodeCount
      cases h : readBytes 4 bs with
      | ok p => obtain ⟨b, r⟩ := p; rfl
      | error e => rfl)
    (errOnly_readBytes 4)

theorem errOnly_decodePL_tail (a : Nat) : ErrOnly (decodePL_tail a) :=
  errOnly_map (g := fun p => (⟨a, p⟩ : permission_level))
    (fun bs => by
      unfold decodePL_tail
      cases h : decodeU64 bs with
      | ok p => obtain ⟨b, r⟩ := p; rfl
      | error e => rfl)
    errOnly_decodeU64

theorem errOnly_decodePL : ErrOnly decodePL :=
  errOnly_bind (f := decodePL_tail)
    (fun bs => by
      unfold decodePL
      cases h : decodeU64 bs with
      | ok p => obtain ⟨b, r⟩ := p; rfl
      | error e => rfl)
    errOnly_decodeU64 errOnly_decodePL_tail

theorem errOnly_cons_tail
    {Dk : List Nat → Except String (List permission_level × List Nat)}
    (hk : ErrOnly Dk) (p : permission_level) : ErrOnly (cons_tail Dk p) :=
  errOnly_map (g := fun ps => p :: ps)
    (fun bs => by
      unfold cons_tail
      cases h : Dk bs with
      | ok q => obtain ⟨ps, r⟩ := q; rfl
      | error e => rfl)
    hk

theorem errOnly_decodePLs (k : Nat) : ErrOnly (decodePLs k) := by
  induction k with
  | zero =>
    intro bs e h
    exact absurd h (by simp [decodePLs])
  | succ k ih =>
    exact errOnly_bind (f := cons_tail (decodePLs k))
      (fun bs => by
        unfold decodePLs
        cases h : decodePL bs with
        | ok q => obtain ⟨p, r⟩ := q; rfl
        | error e => rfl)
      errOnly_decodePL (errOnly_cons_tail ih)

theorem errOnly_decodePLVec : ErrOnly decodePLVec :=
  errOnly_bind (f := decodePLs)
    (fun bs => by
      unfold decodePLVec
      cases h : decodeCount bs with
      | ok p => obtain ⟨k, r⟩ := p; rfl
      | error e => rfl)
    errOnly_decodeCount errOnly_decodePLs

theorem errOnly_decodeBytes : ErrOnly decodeBytes :=
  errOnly_bind (f := readBytes)
    (fun bs => by
      unfold decodeBytes
      cases h : decodeCount bs with
      | ok p => obtain ⟨m, r⟩ := p; rfl
      | error e => rfl)
    errOnly_decodeCount errOnly_readBytes

theorem errOnly_decodeAction_tail3 (c n : Nat) (auth : List permission_level) :
    ErrOnly (decodeAction_tail3 c n auth) :=
  errOnly_map (g := fun d => (⟨c, n, auth, d⟩ : action))
    (fun bs => by
      unfold decodeAction_tail3
      cases h : decodeBytes bs with
      | ok p => obtain ⟨d, r⟩ := p; rfl
      | error e => rfl)
    errOnly_decodeBytes

theorem errOnly_decodeAction_tail2 (c n : Nat) : ErrOnly (decodeAction_tail2 c n) :=
  errOnly_bind (f := decodeAction_tail3 c n)
    (fun bs => by
      unfold decodeAction_tail2
      cases h : decodePLVec bs with
      | ok p => obtain ⟨auth, r⟩ := p; rfl
      | error e => rfl)
    errOnly_decodePLVec (errOnly_decodeAction_tail3 c n)

theorem errOnly_decodeAction_tail1 (c : Nat) : ErrOnly (decodeAction_tail1 c) :=
  errOnly_bind (f := decodeAction_tail2 c)
    (fun bs => by
      unfold decodeAction_tail1
      cases h : decodeU64 bs with
      | ok p => obtain ⟨n, r⟩ := p; rfl
      | error e => rfl)
    errOnly_decodeU64 (errOnly_decodeAction_tail2 c)

theorem errOnly_decodeAction : ErrOnly decodeAction :=
  errOnly_bind (f := decodeAction_tail1)
    (fun bs => by
      unfold decodeAction
      cases h : decodeU64 bs with
      | ok p => obtain ⟨c, r⟩ := p; rfl
      | error e => rfl)
    errOnly_decodeU64 errOnly_decodeAction_tail1

/-! ## Claim theorems -/

/-- C1: Round-trip — for the reflected types of this header,
`permission_level` and `action`, unpacking the bytes produced by packing
any well-formed value yields exactly that value, field for field, with the
whole encoding consumed. -/
theorem C1_round_trip :
    (∀ p : permission_level, p.wf →
      decodePL (pack_permission_level p) = .ok (p, [])) ∧
    (∀ a : action, a.wf →
      decodeAction (pack_action a) = .ok (a, [])) := by
  constructor
  · intro p hp
    have h := decodePL_pack p hp []
    simpa using h
  · intro a ha
    have h := decodeAction_pack a ha []
    simpa using h

/-- Witness for C1 at concrete values. -/
theorem C1_round_trip_witness :
    decodePL (pack_permission_level ⟨5, 7⟩) = .ok (⟨5, 7⟩, []) ∧
    decodeAction (pack_action ⟨1, 2, [⟨3, 4⟩], [9, 8]⟩) =
      .ok (⟨1, 2, [⟨3, 4⟩], [9, 8]⟩, []) :=
  ⟨C1_round_trip.1 ⟨5, 7⟩ (by decide),
   C1_round_trip.2 ⟨1, 2, [⟨3, 4⟩], [9, 8]⟩ (by decide)⟩

/-- C2: Action envelope wire layout — an action built from account `C`,
name `N`, authorization `[{A, P}]` and data bytes `d` packs to exactly
`encode(C) ++ encode(N) ++ count(1) ++ encode(A) ++ encode(P) ++
count(len d) ++ d` with no padding, tags or type markers, and unpacking
that byte sequence reproduces all four fields exactly. -/
theorem C2_action_layout (C N A P : Nat) (d : List Nat)
    (hC : C < 2 ^ 64) (hN : N < 2 ^ 64) (hA : A < 2 ^ 64) (hP : P < 2 ^ 64)
    (hd : d.length < 2 ^ 32) :
    pack_action ⟨C, N, [⟨A, P⟩], d⟩ =
      toLE 8 C ++ toLE 8 N ++ toLE 4 1 ++ toLE 8 A ++ toLE 8 P ++
        toLE 4 d.length ++ d ∧
    decodeAction (toLE 8 C ++ toLE 8 N ++ toLE 4 1 ++ toLE 8 A ++ toLE 8 P ++
        toLE 4 d.length ++ d) = .ok (⟨C, N, [⟨A, P⟩], d⟩, []) := by
  have hpack : pack_action ⟨C, N, [⟨A, P⟩], d⟩ =
      toLE 8 C ++ toLE 8 N ++ toLE 4 1 ++ toLE 8 A ++ toLE 8 P ++
        toLE 4 d.length ++ d := by
    simp [pack_action, pack_pl_vec, pack_pl_list, pack_permission_level,
      pack_bytes, List.append_assoc]
  refine ⟨hpack, ?_⟩
  rw [← hpack]
  have hwf : (action.mk C N [⟨A, P⟩] d).wf := by
    refine ⟨hC, hN, ?_, by norm_num, hd⟩
    intro p hp
    simp only [List.mem_singleton] at hp
    subst hp
    exact ⟨hA, hP⟩
  have h := decodeAction_pack ⟨C, N, [⟨A, P⟩], d⟩ hwf []
  simpa using h

/-- Witness for C2 at concrete values. -/
theorem C2_action_layout_witness :
    pack_action ⟨1, 2, [⟨3, 4⟩], [9, 8]⟩ =
      toLE 8 1 ++ toLE 8 2 ++ toLE 4 1 ++ toLE 8 3 ++ toLE 8 4 ++
        toLE 4 2 ++ [9, 8] ∧
    decodeAction (toLE 8 1 ++ toLE 8 2 ++ toLE 4 1 ++ toLE 8 3 ++ toLE 8 4 ++
        toLE 4 2 ++ [9, 8]) = .ok (⟨1, 2, [⟨3, 4⟩], [9, 8]⟩, []) :=
  C2_action_layout 1 2 3 4 [9, 8] (by decide) (by decide) (by decide)
    (by decide) (by decide)

/-- C3: `permission_level` wire layout — `{actor := A, permission := P}`
packs to exactly `encode(A) ++ encode(P)` with no separators, and unpacking
that exact byte sequence yields `{A, P}` back. -/
theorem C3_permission_level_layout (A P : Nat)
    (hA : A < 2 ^ 64) (hP : P < 2 ^ 64) :
    pack_permission_level ⟨A, P⟩ = toLE 8 A ++ toLE 8 P ∧
    decodePL (toLE 8 A ++ toLE 8 P) = .ok (⟨A, P⟩, []) := by
  refine ⟨rfl, ?_⟩
  have h := decodePL_pack ⟨A, P⟩ ⟨hA, hP⟩ []
  simpa [pack_permission_level] using h

/-- Witness for C3 at concrete values. -/
theorem C3_permission_level_layout_witness :
    pack_permission_level ⟨5, 7⟩ = toLE 8 5 ++ toLE 8 7 ∧
    decodePL (toLE 8 5 ++ toLE 8 7) = .ok (⟨5, 7⟩, []) :=
  C3_permission_level_layout 5 7 (by decide) (by decide)

/-- C4: `current_action` raises the `ShortRead` condition
("action shorter than expected") iff the byte count reported by
`read_action` is strictly smaller than `sizeof(T)`; every read length
`≥ sizeof(T)` passes silently and returns the reinterpreted value — the
first `sizeof(T)` bytes — discarding any extra bytes. -/
theorem C4_current_action (sizeofT read : Nat) (hostData : List Nat) :
    (current_action sizeofT read hostData =
        .error "action shorter than expected" ↔ read < sizeofT) ∧
    (sizeofT ≤ read →
      current_action sizeofT read hostData = .ok (hostData.take sizeofT)) := by
  unfold current_action
  constructor
  · by_cases h : sizeofT ≤ read
    · rw [if_pos h]
      simp
      omega
    · rw [if_neg h]
      simp
      omega
  · intro h
    rw [if_pos h]

/-- Witness for C4: a short read of 3 bytes against a 4-byte type fails
with the `ShortRead` message; a long read of 5 bytes against a 2-byte type
passes and keeps only the first 2 bytes. -/
theorem C4_current_action_witness :
    current_action 4 3 [1, 2, 3] = .error "action shorter than expected" ∧
    current_action 2 5 [1, 2, 3, 4, 5] = .ok [1, 2] := by
  constructor
  · exact (C4_current_action 4 3 [1, 2, 3]).1.mpr (by decide)
  · have h := (C4_current_action 2 5 [1, 2, 3, 4, 5]).2 (by decide)
    simpa using h

/-- C5: Truncation — `unpack` on any strict prefix of a valid encoding
fails with the `TruncatedInput` condition and never returns a (partially
populated) value; stated for the reflected types `action` and
`permission_level`. -/
theorem C5_truncation (bs : List Nat) (l : Nat) (hl : l < bs.length) :
    (∀ a : action, decodeAction bs = .ok (a, []) →
      decodeAction (bs.take l) = .error "truncated input") ∧
    (∀ p : permission_level, decodePL bs = .ok (p, []) →
      decodePL (bs.take l) = .error "truncated input") := by
  constructor
  · intro a h
    obtain ⟨c, hc, hrest, hok, herr⟩ := consumes_decodeAction bs a [] h
    have hcb : c = bs.length := by
      have hlen := congrArg List.length hrest
      simp only [List.length_nil, List.length_drop] at hlen
      omega
    exact herr l (by omega)
  · intro p h
    obtain ⟨c, hc, hrest, hok, herr⟩ := consumes_decodePL bs p [] h
    have hcb : c = bs.length := by
      have hlen := congrArg List.length hrest
      simp only [List.length_nil, List.length_drop] at hlen
      omega
    exact herr l (by omega)

/-- Witness for C5: cutting a valid 42-byte action encoding to its first
30 bytes makes unpacking fail with the `TruncatedInput` condition. -/
theorem C5_truncation_witness :
    30 < (pack_action ⟨1, 2, [⟨3, 4⟩], [9, 8]⟩).length ∧
    decodeAction ((pack_action ⟨1, 2, [⟨3, 4⟩], [9, 8]⟩).take 30) =
      .error "truncated input" :=
  ⟨by decide,
   (C5_truncation (pack_action ⟨1, 2, [⟨3, 4⟩], [9, 8]⟩) 30 (by decide)).1
     ⟨1, 2, [⟨3, 4⟩], [9, 8]⟩ (by rfl)⟩

/-- C6 counterexample: take `[A, B, C] = [1, 2, 3]` and an empty notified
set.  `B = 2` is absent from the set, yet the helper's first host check —
the one for `A = 1` — already fails, so the call fails at `A`, not at `B`,
and only `A` is ever checked.  This refutes the claim that the call fails
exactly at `B` "regardless of A's presence". -/
theorem C6_counterexample :
    (2 : account_name) ∉ ([] : List account_name) ∧
    require_recipient_all [] [1, 2, 3] = ([1], some 1) ∧
    require_recipient_all [] [1, 2, 3] ≠ ([1, 2], some 2) := by
  refine ⟨by decide, by decide, by decide⟩

/-- C6 (amended): the variadic `require_recipient` helper checks its
arguments left to right against the host boundary call, short-circuiting on
the first absent account.  For a list `[A, B, C]` where `B` is absent from
the notified set — provided the accounts before `B` (here `A`) are present —
the call fails exactly at `B` regardless of `C`'s presence, and the check
for `C` is never made (the trace of checked accounts is `[A, B]`). -/
theorem C6_short_circuit (notified : List account_name)
    (A B C : account_name) (hA : A ∈ notified) (hB : B ∉ notified) :
    require_recipient_all notified [A, B, C] = ([A, B], some B) := by
  simp [require_recipient_all, host_require_recipient, if_pos hA, if_neg hB]

/-- Witness for C6 (amended): `A = 1` notified, `B = 2` absent, `C = 3`
also absent — the call fails at `2` and never reaches `3`. -/
theorem C6_short_circuit_witness :
    require_recipient_all [1] [1, 2, 3] = ([1, 2], some 2) :=
  C6_short_circuit [1] 1 2 3 (by decide) (by decide)

/-- C7: construction postcondition — the action built from an authorization
sequence and a payload value of a type exposing the static accessors of
`action_meta<Account, Name>` has `account` equal to `get_account()`
(which is `Account`), `name` equal to `get_name()` (which is `Name`),
`authorization` equal to the moved-in sequence and `data` equal to the
packed payload. -/
theorem C7_ctor {α : Type} (Account Name : Nat) (pk : α → List Nat)
    (auth : List permission_level) (value : α) :
    (action.of_payload Account Name pk auth value).account =
        action_meta.get_account Account Name ∧
    (action.of_payload Account Name pk auth value).name =
        action_meta.get_name Account Name ∧
    (action.of_payload Account Name pk auth value).account = Account ∧
    (action.of_payload Account Name pk auth value).name = Name ∧
    (action.of_payload Account Name pk auth value).authorization = auth ∧
    (action.of_payload Account Name pk auth value).data = pk value := by
  refine ⟨rfl, rfl, rfl, rfl, rfl, rfl⟩

/-- C8: `send` packs the entire action envelope — account, name,
authorization and data, not just the payload — and hands exactly those
bytes and their length to the host's `send_inline` boundary call, leaving
the action unchanged; for a well-formed action the submitted bytes decode
back to the whole envelope. -/
theorem C8_send (a : action) :
    a.send = (pack_action a, (pack_action a).length) ∧
    (a.wf → decodeAction a.send.1 = .ok (a, [])) := by
  refine ⟨rfl, ?_⟩
  intro h
  show decodeAction (pack_action a) = .ok (a, [])
  have hd := decodeAction_pack a h []
  simpa using hd

/-- Witness for C8 at a concrete action. -/
theorem C8_send_witness :
    action.send ⟨1, 2, [⟨3, 4⟩], [9, 8]⟩ =
      (pack_action ⟨1, 2, [⟨3, 4⟩], [9, 8]⟩,
        (pack_action ⟨1, 2, [⟨3, 4⟩], [9, 8]⟩).length) ∧
    decodeAction (action.send ⟨1, 2, [⟨3, 4⟩], [9, 8]⟩).1 =
      .ok (⟨1, 2, [⟨3, 4⟩], [9, 8]⟩, []) :=
  ⟨(C8_send ⟨1, 2, [⟨3, 4⟩], [9, 8]⟩).1,
   (C8_send ⟨1, 2, [⟨3, 4⟩], [9, 8]⟩).2 (by decide)⟩

/-- C9: order sensitivity — packing a sequence of `permission_level`s
(duplicates and arbitrary order included) writes the count prefix followed
by each element's encoding in sequence order, and unpacking reconstructs
exactly the same sequence: same order, duplicates kept. -/
theorem C9_order (ps : List permission_level) (h : ∀ p ∈ ps, p.wf)
    (hlen : ps.length < 2 ^ 32) :
    pack_pl_vec ps = toLE 4 ps.length ++ pack_pl_list ps ∧
    decodePLVec (pack_pl_vec ps) = .ok (ps, []) := by
  refine ⟨rfl, ?_⟩
  have hd := decodePLVec_pack ps h hlen []
  simpa using hd

/-- Witness for C9 on an unsorted sequence with a duplicate entry. -/
theorem C9_order_witness :
    decodePLVec (pack_pl_vec [⟨2, 9⟩, ⟨1, 1⟩, ⟨2, 9⟩]) =
      .ok ([⟨2, 9⟩, ⟨1, 1⟩, ⟨2, 9⟩], []) :=
  (C9_order [⟨2, 9⟩, ⟨1, 1⟩, ⟨2, 9⟩] (by decide) (by decide)).2

/-- C10: `unpack_action` discards `read_action`'s byte count and
unconditionally unpacks the whole `action_size()`-byte buffer: when the
host copies fewer bytes than `action_size()`, decoding simply proceeds
over the uninspected remainder of the buffer (the uninitialized `junk`
bytes are consumed as if they were action data), and the only error it can
report is the `TruncatedInput` condition — never the `ShortRead` condition
of `current_action`. -/
theorem C10_unpack_action (actionSize : Nat) (copied junk : List Nat)
    (hshort : copied.length < actionSize) :
    unpack_action decodeAction actionSize copied junk =
      (match decodeAction (copied ++ junk.take (actionSize - copied.length)) with
       | .ok (v, _) => .ok v
       | .error e => .error e) ∧
    ∀ e, unpack_action decodeAction actionSize copied junk = .error e →
      e = "truncated input" := by
  have hbuf : (copied ++ junk).take actionSize =
      copied ++ junk.take (actionSize - copied.length) := by
    rw [List.take_append_eq_append_take,
      List.take_of_length_le (Nat.le_of_lt hshort)]
  constructor
  · unfold unpack_action
    rw [hbuf]
    cases hdec : decodeAction (copied ++ junk.take (actionSize - copied.length)) with
    | ok p => obtain ⟨v, r⟩ := p; rfl
    | error e => rfl
  · intro e he
    unfold unpack_action at he
    cases hdec : decodeAction ((copied ++ junk).take actionSize) with
    | ok p =>
      obtain ⟨v, r⟩ := p
      rw [hdec] at he
      exact absurd he (by simp)
    | error e1 =>
      rw [hdec] at he
      have he1 : e1 = e := by
        have := he
        simp only [Except.error.injEq] at this
        exact this
      exact he1 ▸ errOnly_decodeAction _ e1 hdec

/-- Witness for C10: `action_size() = 3` but the host copied only 1 byte —
no ShortRead-style error is raised; decoding runs over the junk bytes and
reports the `TruncatedInput` condition of the codec instead. -/
theorem C10_unpack_action_witness :
    unpack_action decodeAction 3 [1] [0, 0] =
      (match decodeAction ([1] ++ [0, 0].take (3 - ([1] : List Nat).length)) with
       | .ok (v, _) => .ok v
       | .error e => .error e) ∧
    unpack_action decodeAction 3 [1] [0, 0] = .error "truncated input" :=
  ⟨(C10_unpack_action 3 [1] [0, 0] (by decide)).1, by rfl⟩
